import Mathlib

/-!
Shallow embedding of the Pikus matrix library (src/src/matrix.rs) and
verification of its specification.

The matrix module depends on three helpers from sibling modules whose source
is not available (util::get_perms, util::get_permutation_sign,
operations::add_vec); those are modelled from the specification and marked as
such in their doc comments.

Rust `Vec<Vec<T>>` is modelled as `List (List T)`, `usize` as `Nat`, `i32` as
`Int`, `Result` as `Except`.  Operations that can panic on out-of-bounds
indexing (add_matrices) return `Option (Except ...)`, `none` standing for the
panic; operations whose index accesses are always in range on validly
constructed inputs use a total accessor with a junk default value.
-/

namespace Pikus

/-- The error taxonomy of the library (crate::error::CustomErrors). -/
inductive CustomErrors where
  | EmptyVector
  | NonUniform
  | Mismatch
  | NotImplemented
  deriving DecidableEq, Repr

/-- The Matrix struct: rows plus the row count m and column count n. -/
structure Matrix (T : Type) where
  rows : List (List T)
  m : Nat
  n : Nat
  deriving Repr

/-- The invariants established by the validated constructor: the stored row
count matches the list, both dimensions are at least one, and every row has
exactly n elements. -/
def Matrix.Valid {T : Type} (A : Matrix T) : Prop :=
  A.rows.length = A.m ∧ 1 ≤ A.m ∧ 1 ≤ A.n ∧ ∀ r ∈ A.rows, r.length = A.n

instance {T : Type} (A : Matrix T) : Decidable A.Valid := by
  unfold Matrix.Valid; infer_instance

/-- Total element accessor: rows[i][j] with a junk default when out of
range (Rust would panic there; the theorems only use it in range). -/
def Matrix.el {T : Type} [Inhabited T] (A : Matrix T) (i j : Nat) : T :=
  (A.rows.getD i []).getD j default

/-- Matrix::new — the validated constructor. -/
def Matrix.new {T : Type} (rows : List (List T)) : Except CustomErrors (Matrix T) :=
  let m := rows.length
  if m = 0 then .error .EmptyVector
  else
    let n := (rows.headD []).length
    if n = 0 then .error .EmptyVector
    else if (rows.drop 1).any (fun r => r.length ≠ n) then .error .NonUniform
    else .ok ⟨rows, m, n⟩

/-- Matrix::transpose — builds the j-th transposed row from column j. -/
def Matrix.transpose {T : Type} [Inhabited T] (A : Matrix T) : Matrix T :=
  { rows := (List.range A.n).map (fun j => (List.range A.m).map (fun i => A.el i j)),
    m := A.n,
    n := A.m }

/-- create_identity_matrix. -/
def create_identity_matrix (T : Type) [Zero T] [One T] (dim : Nat) :
    Except CustomErrors (Matrix T) :=
  if dim = 0 then .error .EmptyVector
  else .ok ⟨(List.range dim).map (fun i =>
        (List.range dim).map (fun j => if j = i then (1 : T) else 0)),
      dim, dim⟩

/-- is_square. -/
def is_square {T : Type} (matrix : Matrix T) : Bool :=
  if matrix.m ≠ matrix.n then false else true

/-- can_add — note it compares matrix_1.m with matrix_2.n, as the source does. -/
def can_add {T : Type} (matrix_1 matrix_2 : Matrix T) : Bool :=
  if matrix_1.m ≠ matrix_2.n then false
  else if matrix_1.n ≠ matrix_2.n then false
  else true

/-- can_multiply. -/
def can_multiply {T : Type} (matrix_1 matrix_2 : Matrix T) : Bool :=
  if matrix_1.n ≠ matrix_2.m then false else true

/-- Modelled from the spec: operations::add_vec is not under src/.  The spec
describes it as an element-wise vector-add helper that may fail on length
mismatch; any failure is propagated unchanged by add_matrices. -/
def add_vec {T : Type} [Add T] (v w : List T) : Except CustomErrors (List T) :=
  if v.length ≠ w.length then .error .Mismatch
  else .ok (List.zipWith (· + ·) v w)

/-- The row loop of add_matrices over a list of row indices: at each index it
reads both operand rows (out-of-bounds indexing is the Rust panic, modelled as
none), calls add_vec and propagates its error, and otherwise collects the sum
row. -/
def addRowsGo {T : Type} [Add T] (rows1 rows2 : List (List T)) :
    List Nat → Option (Except CustomErrors (List (List T)))
  | [] => some (.ok [])
  | i :: is =>
    match rows1[i]?, rows2[i]? with
    | some r1, some r2 =>
      match add_vec r1 r2 with
      | .error e => some (.error e)
      | .ok v =>
        match addRowsGo rows1 rows2 is with
        | none => none
        | some (.error e) => some (.error e)
        | some (.ok rest) => some (.ok (v :: rest))
    | _, _ => none

/-- add_matrices — checks can_add, then loops i in 0..matrix_1.m adding rows.
The result is none when the loop indexes a rows vector past its end (a Rust
panic, so no Result value is returned at all). -/
def add_matrices {T : Type} [Add T] (matrix_1 matrix_2 : Matrix T) :
    Option (Except CustomErrors (Matrix T)) :=
  if !(can_add matrix_1 matrix_2) then some (.error .Mismatch)
  else
    match addRowsGo matrix_1.rows matrix_2.rows (List.range matrix_1.m) with
    | none => none
    | some (.error e) => some (.error e)
    | some (.ok rs) => some (.ok ⟨rs, matrix_1.m, matrix_1.n⟩)

/-- multiply_matrices — the defensive zero-dimension check, the can_multiply
check, then the triple loop with the element sum accumulated from 0. -/
def multiply_matrices {T : Type} [Inhabited T] [Zero T] [Add T] [Mul T]
    (matrix_1 matrix_2 : Matrix T) : Except CustomErrors (Matrix T) :=
  if matrix_1.m == 0 || matrix_1.n == 0 || matrix_2.m == 0 || matrix_2.n == 0 then
    .error .EmptyVector
  else if !(can_multiply matrix_1 matrix_2) then .error .Mismatch
  else
    .ok ⟨(List.range matrix_1.m).map (fun i =>
        (List.range matrix_2.n).map (fun j =>
          (List.range matrix_1.n).foldl
            (fun element_sum k => element_sum + matrix_1.el i k * matrix_2.el k j) 0)),
      matrix_1.m, matrix_2.n⟩

/-- The number of inversions of a sequence: pairs i < j with perm[i] > perm[j]. -/
def countInversions : List Nat → Nat
  | [] => 0
  | x :: xs => (xs.filter (fun y => y < x)).length + countInversions xs

/-- Modelled from the spec: util::get_permutation_sign is not under src/.
The spec defines the sign as +1 or -1 according to the parity of the number
of inversions, as a small signed integer later converted into T. -/
def get_permutation_sign (perm : List Nat) : Int :=
  if countInversions perm % 2 = 0 then 1 else -1

/-- Modelled from the spec: util::get_perms is not under src/.  The spec says
it produces every permutation of the integers 0..n, each exactly once. -/
def get_perms (n : Nat) : List (List Nat) :=
  (List.range n).permutations'

/-- get_determinant — the NotImplemented guard for non-square input, then the
Leibniz expansion: for each permutation, the sign converted into T times the
product of rows[i][perm[i]], accumulated into the determinant from 0. -/
def get_determinant {T : Type} [Ring T] [Inhabited T] (matrix : Matrix T) :
    Except CustomErrors T :=
  if !(is_square matrix) then .error .NotImplemented
  else
    let size := matrix.rows.length
    let perms := get_perms size
    .ok (perms.foldl (fun determinant perm =>
      let sign : Int := get_permutation_sign perm
      let term : T := (List.range size).foldl
        (fun term i => term * matrix.el i (perm.getD i 0)) 1
      determinant + (sign : T) * term) 0)

/-- The Leibniz sum as the specification states it: over all permutations σ of
the set 0..n-1, the sign of σ (by inversion parity) times the product over i
of matrix[i][σ(i)].  Written from the words of the spec, to be compared with
get_determinant. -/
def leibniz_spec_det {T : Type} [Ring T] [Inhabited T] (A : Matrix T) : T :=
  ((List.range A.n).permutations'.map (fun σ =>
    ((get_permutation_sign σ : Int) : T) *
      ((List.range A.n).map (fun i => A.el i (σ.getD i 0))).prod)).sum

/-! ## Helper lemmas -/

lemma foldl_add_map {M α : Type _} [AddMonoid M] (f : α → M) (l : List α) (init : M) :
    l.foldl (fun s x => s + f x) init = init + (l.map f).sum := by
  induction l generalizing init with
  | nil => simp
  | cons x xs ih => simp [ih, add_assoc]

lemma foldl_mul_map {M α : Type _} [Monoid M] (f : α → M) (l : List α) (init : M) :
    l.foldl (fun s x => s * f x) init = init * (l.map f).prod := by
  induction l generalizing init with
  | nil => simp
  | cons x xs ih => simp [ih, mul_assoc]

lemma getD_map_range {α : Type _} (f : Nat → α) (d : α) {i n : Nat} (h : i < n) :
    ((List.range n).map f).getD i d = f i := by
  simp [List.getD_eq_getElem?_getD, List.getElem?_map, List.getElem?_range, h]

lemma getD_range {i n : Nat} (d : Nat) (h : i < n) : (List.range n).getD i d = i := by
  simp [List.getD_eq_getElem?_getD, List.getElem?_range, h]

lemma el_mk_double_map {T : Type} [Inhabited T] (f : Nat → Nat → T) {M N : Nat}
    (mm nn i j : Nat) (hi : i < M) (hj : j < N) :
    (Matrix.mk ((List.range M).map (fun i => (List.range N).map (fun j => f i j))) mm nn).el i j
      = f i j := by
  unfold Matrix.el
  show (((List.range M).map (fun i => (List.range N).map (fun j => f i j))).getD i []).getD
      j default = f i j
  rw [getD_map_range _ _ hi, getD_map_range _ _ hj]

lemma sum_map_eq_of_nodup_mem {M α : Type _} [AddMonoid M]
    (f : α → M) (a : α) :
    ∀ l : List α, l.Nodup → a ∈ l → (∀ x ∈ l, x ≠ a → f x = 0) →
      (l.map f).sum = f a := by
  intro l
  induction l with
  | nil => intro _ h; simp at h
  | cons x xs ih =>
    intro hnd hmem hz
    rcases List.nodup_cons.mp hnd with ⟨hnx, hnd'⟩
    by_cases hx : x = a
    · subst hx
      have hsum : (xs.map f).sum = 0 := by
        apply List.sum_eq_zero
        intro y hy
        rcases List.mem_map.mp hy with ⟨z, hz', rfl⟩
        exact hz z (List.mem_cons_of_mem _ hz')
          (fun hzx => absurd (hzx ▸ hz') hnx)
      simp [hsum]
    · have hfx : f x = 0 := hz x (List.mem_cons_self x xs) hx
      have hmem' : a ∈ xs := by
        rcases List.mem_cons.mp hmem with rfl | hmem'
        · exact absurd rfl hx
        · exact hmem'
      rw [List.map_cons, List.sum_cons, hfx, zero_add,
        ih hnd' hmem' (fun y hy => hz y (List.mem_cons_of_mem _ hy))]

lemma countInversions_eq_zero_of_pairwise_lt (l : List Nat) (h : l.Pairwise (· < ·)) :
    countInversions l = 0 := by
  induction l with
  | nil => rfl
  | cons x xs ih =>
    rcases List.pairwise_cons.mp h with ⟨hall, htail⟩
    have hf : xs.filter (fun y => y < x) = [] := by
      apply List.filter_eq_nil_iff.mpr
      intro y hy
      simp [Nat.not_lt.mpr (Nat.le_of_lt (hall y hy))]
    simp [countInversions, hf, ih htail]

lemma get_permutation_sign_range (n : Nat) : get_permutation_sign (List.range n) = 1 := by
  unfold get_permutation_sign
  rw [countInversions_eq_zero_of_pairwise_lt _ (List.pairwise_lt_range n)]
  norm_num

lemma get_determinant_ok {T : Type} [Ring T] [Inhabited T] (A : Matrix T) (h : A.m = A.n) :
    get_determinant A = .ok (((get_perms A.rows.length).map (fun perm =>
      ((get_permutation_sign perm : Int) : T) *
        ((List.range A.rows.length).map (fun i => A.el i (perm.getD i 0))).prod)).sum) := by
  unfold get_determinant
  rw [if_neg (by simp [is_square, h])]
  simp only [foldl_mul_map, foldl_add_map, one_mul, zero_add]

lemma can_add_true {T : Type} (a b : Matrix T) :
    can_add a b = true ↔ (a.m = b.n ∧ a.n = b.n) := by
  unfold can_add
  by_cases h1 : a.m = b.n <;> by_cases h2 : a.n = b.n <;> simp [h1, h2]

lemma can_multiply_true {T : Type} (a b : Matrix T) :
    can_multiply a b = true ↔ a.n = b.m := by
  unfold can_multiply
  by_cases h : a.n = b.m <;> simp [h]

/-! ## Claim theorems -/

/-- Claim C3: for every pair of matrices a and b, can_add a b returns true if
and only if a.m = b.n and a.n = b.n — the literal rule comparing the row count
of a with the column count of b. -/
theorem can_add_literal_rule {T : Type} (a b : Matrix T) :
    can_add a b = true ↔ (a.m = b.n ∧ a.n = b.n) :=
  can_add_true a b

/-- Claim C2: get_determinant returns the NotImplemented error exactly when the
matrix is not square (m ≠ n), returns an ok value on every square matrix, and
never returns any other error kind. -/
theorem get_determinant_error_iff {T : Type} [Ring T] [Inhabited T] (A : Matrix T) :
    (A.m ≠ A.n → get_determinant A = .error .NotImplemented)
    ∧ (A.m = A.n → ∃ t : T, get_determinant A = .ok t)
    ∧ (∀ e, get_determinant A = .error e → e = .NotImplemented) := by
  refine ⟨?_, ?_, ?_⟩
  · intro h
    simp [get_determinant, is_square, h]
  · intro h
    exact ⟨_, get_determinant_ok A h⟩
  · intro e he
    by_cases h : A.m = A.n
    · rw [get_determinant_ok A h] at he
      simp at he
    · simp [get_determinant, is_square, h] at he
      exact he.symm

/-- Witness for C2: a concrete 2×3 matrix fails with NotImplemented. -/
theorem get_determinant_error_iff_witness :
    get_determinant (⟨[[1,2,3],[4,5,6]],2,3⟩ : Matrix Int) = .error .NotImplemented :=
  (get_determinant_error_iff (⟨[[1,2,3],[4,5,6]],2,3⟩ : Matrix Int)).1 (by decide)

/-- Claim C10: there are validly constructed matrices a (square, k×k, k ≥ 2)
and b (j×k with 1 ≤ j < k) accepted by can_add on which add_matrices indexes
the rows of b past their end, so the call panics (returns no Result value,
modelled as none). -/
theorem add_matrices_panic_exists :
    ∃ a b : Matrix Int, a.Valid ∧ b.Valid ∧ a.m = a.n ∧ 2 ≤ a.m ∧ 1 ≤ b.m ∧ b.m < a.m
      ∧ b.n = a.n ∧ can_add a b = true ∧ add_matrices a b = none := by
  exact ⟨⟨[[1,2],[3,4]],2,2⟩, ⟨[[5,6]],1,2⟩,
    by decide, by decide, rfl, by decide, by decide, by decide, rfl, by decide, by rfl⟩

/-- Claim C8: on a validly constructed matrix, transpose always produces a
matrix (no Result) whose row count is the input column count, whose column
count is the input row count, and whose entry at (j, i) is the input entry
at (i, j). -/
theorem transpose_spec {T : Type} [Inhabited T] (A : Matrix T) (hv : A.Valid) :
    A.transpose.m = A.n ∧ A.transpose.n = A.m ∧
      ∀ i, i < A.m → ∀ j, j < A.n → A.transpose.el j i = A.el i j := by
  refine ⟨rfl, rfl, ?_⟩
  intro i hi j hj
  unfold Matrix.transpose
  exact el_mk_double_map (fun j i => A.el i j) A.n A.m j i hj hi

/-- Witness for C8 on a concrete 2×2 matrix. -/
theorem transpose_spec_witness :
    (⟨[[1,2],[3,4]],2,2⟩ : Matrix Int).Valid ∧
      ((⟨[[1,2],[3,4]],2,2⟩ : Matrix Int).transpose.m = 2 ∧
        (⟨[[1,2],[3,4]],2,2⟩ : Matrix Int).transpose.n = 2 ∧
        ∀ i, i < 2 → ∀ j, j < 2 →
          (⟨[[1,2],[3,4]],2,2⟩ : Matrix Int).transpose.el j i
            = (⟨[[1,2],[3,4]],2,2⟩ : Matrix Int).el i j) :=
  ⟨by decide, transpose_spec (⟨[[1,2],[3,4]],2,2⟩ : Matrix Int) (by decide)⟩

/-- Claim C9: transpose is an involution — transposing twice preserves the row
count, the column count and every element of a validly constructed matrix. -/
theorem transpose_involution {T : Type} [Inhabited T] (A : Matrix T) (hv : A.Valid) :
    A.transpose.transpose.m = A.m ∧ A.transpose.transpose.n = A.n ∧
      ∀ i, i < A.m → ∀ j, j < A.n → A.transpose.transpose.el i j = A.el i j := by
  refine ⟨rfl, rfl, ?_⟩
  intro i hi j hj
  have h2 : A.transpose.el j i = A.el i j := by
    unfold Matrix.transpose
    exact el_mk_double_map (fun j i => A.el i j) A.n A.m j i hj hi
  have h1 : A.transpose.transpose.el i j = A.transpose.el j i := by
    show (A.transpose).transpose.el i j = A.transpose.el j i
    unfold Matrix.transpose
    exact el_mk_double_map (fun i j => A.transpose.el j i) A.m A.n i j hi hj
  rw [h1, h2]

/-- Witness for C9 on a concrete 2×2 matrix. -/
theorem transpose_involution_witness :
    (⟨[[1,2],[3,4]],2,2⟩ : Matrix Int).Valid ∧
      ((⟨[[1,2],[3,4]],2,2⟩ : Matrix Int).transpose.transpose.m = 2 ∧
        (⟨[[1,2],[3,4]],2,2⟩ : Matrix Int).transpose.transpose.n = 2 ∧
        ∀ i, i < 2 → ∀ j, j < 2 →
          (⟨[[1,2],[3,4]],2,2⟩ : Matrix Int).transpose.transpose.el i j
            = (⟨[[1,2],[3,4]],2,2⟩ : Matrix Int).el i j) :=
  ⟨by decide, transpose_involution (⟨[[1,2],[3,4]],2,2⟩ : Matrix Int) (by decide)⟩

/-- Claim C1: on every validly constructed square matrix, get_determinant
returns ok of the Leibniz sum over all permutations, with the sign given by
the parity of the number of inversions; the witness checks the determinant of
the matrix [[1,2],[3,4]] is -2. -/
theorem get_determinant_eq_leibniz {T : Type} [Ring T] [Inhabited T] (A : Matrix T)
    (hv : A.Valid) (hs : A.m = A.n) :
    get_determinant A = .ok (leibniz_spec_det A) := by
  have hL : A.rows.length = A.n := hv.1.trans hs
  rw [get_determinant_ok A hs]
  unfold leibniz_spec_det get_perms
  rw [hL]

/-- Witness for C1: at [[1,2],[3,4]] the determinant is the Leibniz sum and
equals -2. -/
theorem get_determinant_eq_leibniz_witness :
    (⟨[[1,2],[3,4]],2,2⟩ : Matrix Int).Valid ∧
      get_determinant (⟨[[1,2],[3,4]],2,2⟩ : Matrix Int)
        = .ok (leibniz_spec_det (⟨[[1,2],[3,4]],2,2⟩ : Matrix Int)) ∧
      leibniz_spec_det (⟨[[1,2],[3,4]],2,2⟩ : Matrix Int) = -2 :=
  ⟨by decide, get_determinant_eq_leibniz (⟨[[1,2],[3,4]],2,2⟩ : Matrix Int) (by decide) rfl,
    by rfl⟩

/-- Claim C6: Matrix.new fails with EmptyVector when the outer sequence or the
first row is empty, fails with NonUniform when some row differs in length from
the first row, and otherwise succeeds with m the number of rows and n the
length of the first row; new [[1,2],[3,4]] succeeds with m = 2 and n = 2 (the
witness checks this instance). -/
theorem matrix_new_spec {T : Type} (rows : List (List T)) :
    ((rows.length = 0 ∨ (rows.headD []).length = 0) → Matrix.new rows = .error .EmptyVector)
    ∧ (rows.length ≠ 0 → (rows.headD []).length ≠ 0 →
        (((∃ r ∈ rows, r.length ≠ (rows.headD []).length) →
            Matrix.new rows = .error .NonUniform)
        ∧ ((∀ r ∈ rows, r.length = (rows.headD []).length) →
            Matrix.new rows = .ok ⟨rows, rows.length, (rows.headD []).length⟩))) := by
  cases rows with
  | nil =>
    exact ⟨fun _ => by rfl, fun h => absurd rfl h⟩
  | cons r0 rest =>
    constructor
    · intro h
      rcases h with h | h
      · simp at h
      · simp only [List.headD_cons] at h
        simp [Matrix.new, h]
    · intro h1 h2
      simp only [List.headD_cons] at h2 ⊢
      constructor
      · rintro ⟨r, hr, hne⟩
        have hr' : r ∈ rest := by
          rcases List.mem_cons.mp hr with rfl | hmem
          · exact absurd rfl hne
          · exact hmem
        simp only [Matrix.new, List.length_cons, List.headD_cons, List.drop_one,
          List.tail_cons]
        rw [if_neg (by simp), if_neg h2, if_pos]
        exact List.any_eq_true.mpr ⟨r, hr', by simpa using hne⟩
      · intro hall
        simp only [Matrix.new, List.length_cons, List.headD_cons, List.drop_one,
          List.tail_cons]
        rw [if_neg (by simp), if_neg h2, if_neg]
        simp only [List.any_eq_true, not_exists, not_and]
        intro r hr
        simp [hall r (List.mem_cons_of_mem _ hr)]

/-- Witness for C6: new [[1,2],[3,4]] succeeds with m = 2 and n = 2. -/
theorem matrix_new_spec_witness :
    Matrix.new ([[1,2],[3,4]] : List (List Int))
      = .ok ⟨[[1,2],[3,4]], 2, 2⟩ := by
  have h := (matrix_new_spec ([[1,2],[3,4]] : List (List Int))).2
    (by decide) (by decide)
  exact h.2 (by decide)

/-- Claim C5: on validly constructed matrices (hence of nonzero dimensions),
multiply_matrices fails with Mismatch exactly when the inner dimensions
disagree (a.n ≠ b.m) and otherwise returns an a.m × b.n matrix whose (i, j)
cell is the sum over k of a[i][k] * b[k][j] accumulated from zero. -/
theorem multiply_matrices_spec {T : Type} [Inhabited T] [AddMonoid T] [Mul T]
    (a b : Matrix T) (hva : a.Valid) (hvb : b.Valid) :
    (a.n ≠ b.m → multiply_matrices a b = .error .Mismatch)
    ∧ (a.n = b.m → ∃ C, multiply_matrices a b = .ok C ∧ C.m = a.m ∧ C.n = b.n ∧
        ∀ i, i < a.m → ∀ j, j < b.n →
          C.el i j = ((List.range a.n).map (fun k => a.el i k * b.el k j)).sum) := by
  rcases hva with ⟨hla, ham, han, hra⟩
  rcases hvb with ⟨hlb, hbm, hbn, hrb⟩
  have hz : ¬((a.m == 0 || a.n == 0 || b.m == 0 || b.n == 0) = true) := by
    simp only [Bool.or_eq_true, beq_iff_eq]
    omega
  constructor
  · intro h
    unfold multiply_matrices
    rw [if_neg hz, if_pos]
    simp [can_multiply, h]
  · intro h
    have heq : multiply_matrices a b
        = .ok ⟨(List.range a.m).map (fun i => (List.range b.n).map (fun j =>
            (List.range a.n).foldl (fun s k => s + a.el i k * b.el k j) 0)),
          a.m, b.n⟩ := by
      unfold multiply_matrices
      rw [if_neg hz, if_neg (by simp [can_multiply, h])]
    refine ⟨_, heq, rfl, rfl, ?_⟩
    intro i hi j hj
    rw [el_mk_double_map
      (fun i j => (List.range a.n).foldl (fun s k => s + a.el i k * b.el k j) 0)
      a.m b.n i j hi hj]
    rw [foldl_add_map (fun k => a.el i k * b.el k j) (List.range a.n) 0, zero_add]

/-- Witness for C5: the 2×3 by 4×2 pair fails with Mismatch, and a 2×3 by 3×2
product succeeds with the dot-product cells. -/
theorem multiply_matrices_spec_witness :
    multiply_matrices (⟨[[1,2,3],[4,5,6]],2,3⟩ : Matrix Int) ⟨[[1,2],[3,4],[5,6],[7,8]],4,2⟩
        = .error .Mismatch ∧
      (∃ C, multiply_matrices (⟨[[1,2,3],[4,5,6]],2,3⟩ : Matrix Int)
          ⟨[[7,8],[9,10],[11,12]],3,2⟩ = .ok C ∧ C.m = 2 ∧ C.n = 2 ∧
        ∀ i, i < 2 → ∀ j, j < 2 →
          C.el i j = ((List.range 3).map (fun k =>
            (⟨[[1,2,3],[4,5,6]],2,3⟩ : Matrix Int).el i k *
              (⟨[[7,8],[9,10],[11,12]],3,2⟩ : Matrix Int).el k j)).sum) :=
  ⟨(multiply_matrices_spec (⟨[[1,2,3],[4,5,6]],2,3⟩ : Matrix Int)
      ⟨[[1,2],[3,4],[5,6],[7,8]],4,2⟩ (by decide) (by decide)).1 (by decide),
    (multiply_matrices_spec (⟨[[1,2,3],[4,5,6]],2,3⟩ : Matrix Int)
      ⟨[[7,8],[9,10],[11,12]],3,2⟩ (by decide) (by decide)).2 rfl⟩

lemma addRowsGo_ok {T : Type} [Add T] (rows1 rows2 : List (List T)) :
    ∀ is : List Nat,
      (∀ i ∈ is, ∃ r1, rows1[i]? = some r1 ∧ ∃ r2, rows2[i]? = some r2
        ∧ r1.length = r2.length) →
      addRowsGo rows1 rows2 is
        = some (.ok (is.map (fun i =>
            List.zipWith (· + ·) (rows1.getD i []) (rows2.getD i [])))) := by
  intro is
  induction is with
  | nil => intro _; rfl
  | cons i is ih =>
    intro h
    rcases h i (List.mem_cons_self i is) with ⟨r1, h1, r2, h2, hlen⟩
    have e1 : rows1.getD i [] = r1 := by simp [List.getD_eq_getElem?_getD, h1]
    have e2 : rows2.getD i [] = r2 := by simp [List.getD_eq_getElem?_getD, h2]
    have hrec := ih (fun x hx => h x (List.mem_cons_of_mem _ hx))
    simp [addRowsGo, h1, h2, add_vec, hlen, hrec, e1, e2]

/-- Counterexample to claim C4 as stated: a valid 2×2 matrix a and a valid 1×2
matrix b pass can_add, yet add_matrices returns no Result at all (the loop
indexes the rows of b past their end: a panic, modelled as none) instead of
Ok of an elementwise sum. -/
theorem add_matrices_claim_counterexample :
    (⟨[[1,2],[3,4]],2,2⟩ : Matrix Int).Valid ∧ (⟨[[5,6]],1,2⟩ : Matrix Int).Valid ∧
      can_add (⟨[[1,2],[3,4]],2,2⟩ : Matrix Int) ⟨[[5,6]],1,2⟩ = true ∧
      add_matrices (⟨[[1,2],[3,4]],2,2⟩ : Matrix Int) ⟨[[5,6]],1,2⟩ = none :=
  ⟨by decide, by decide, by decide, by rfl⟩

/-- Claim C4 (amended): for validly constructed a and b, add_matrices returns
the Mismatch error when can_add is false; when can_add is true and b has at
least a.m rows, it returns Ok of a matrix of the shape of a with cell (i, j)
equal to a[i][j] + b[i][j].  (When b has fewer rows than a the call panics —
see the counterexample and claim C10.) -/
theorem add_matrices_amended {T : Type} [Add T] [Inhabited T] (a b : Matrix T)
    (hva : a.Valid) (hvb : b.Valid) :
    (can_add a b = false → add_matrices a b = some (.error .Mismatch))
    ∧ (can_add a b = true → a.m ≤ b.m →
        ∃ C, add_matrices a b = some (.ok C) ∧ C.m = a.m ∧ C.n = a.n ∧
          ∀ i, i < a.m → ∀ j, j < a.n → C.el i j = a.el i j + b.el i j) := by
  obtain ⟨hla, ham, han, hra⟩ := hva
  obtain ⟨hlb, hbm, hbn, hrb⟩ := hvb
  constructor
  · intro h
    unfold add_matrices
    rw [if_pos (by simp [h])]
  · intro hc hmle
    have hcc := (can_add_true a b).mp hc
    have hbna : b.n = a.n := hcc.2.symm
    have hrows : ∀ i ∈ List.range a.m, ∃ r1, a.rows[i]? = some r1 ∧
        ∃ r2, b.rows[i]? = some r2 ∧ r1.length = r2.length := by
      intro i hi
      have hi' : i < a.m := List.mem_range.mp hi
      have hi1 : i < a.rows.length := by omega
      have hi2 : i < b.rows.length := by omega
      refine ⟨a.rows[i], List.getElem?_eq_getElem hi1, b.rows[i],
        List.getElem?_eq_getElem hi2, ?_⟩
      rw [hra _ (List.getElem_mem hi1), hrb _ (List.getElem_mem hi2), hbna]
    have hgo := addRowsGo_ok a.rows b.rows (List.range a.m) hrows
    have heq : add_matrices a b = some (.ok ⟨(List.range a.m).map (fun i =>
        List.zipWith (· + ·) (a.rows.getD i []) (b.rows.getD i [])), a.m, a.n⟩) := by
      unfold add_matrices
      rw [if_neg (by simp [hc]), hgo]
    refine ⟨_, heq, rfl, rfl, ?_⟩
    intro i hi j hj
    have hi1 : i < a.rows.length := by omega
    have hi2 : i < b.rows.length := by omega
    have hlen1 : (a.rows.getD i []).length = a.n := by
      rw [List.getD_eq_getElem _ _ hi1]
      exact hra _ (List.getElem_mem hi1)
    have hlen2 : (b.rows.getD i []).length = a.n := by
      rw [List.getD_eq_getElem _ _ hi2]
      rw [hrb _ (List.getElem_mem hi2), hbna]
    show ((((List.range a.m).map (fun i =>
        List.zipWith (· + ·) (a.rows.getD i []) (b.rows.getD i []))).getD i []).getD
          j default) = a.el i j + b.el i j
    rw [getD_map_range _ _ hi]
    have hjz : j < (List.zipWith (· + ·) (a.rows.getD i []) (b.rows.getD i [])).length := by
      rw [List.length_zipWith, hlen1, hlen2]
      simpa using hj
    rw [List.getD_eq_getElem _ _ hjz, List.getElem_zipWith]
    unfold Matrix.el
    rw [List.getD_eq_getElem (a.rows.getD i []) default (by rw [hlen1]; exact hj),
      List.getD_eq_getElem (b.rows.getD i []) default (by rw [hlen2]; exact hj)]

/-- Witness for the amended C4 on two valid 2×2 matrices. -/
theorem add_matrices_amended_witness :
    (⟨[[1,2],[3,4]],2,2⟩ : Matrix Int).Valid ∧ (⟨[[5,6],[7,8]],2,2⟩ : Matrix Int).Valid ∧
      (∃ C, add_matrices (⟨[[1,2],[3,4]],2,2⟩ : Matrix Int) ⟨[[5,6],[7,8]],2,2⟩
          = some (.ok C) ∧ C.m = 2 ∧ C.n = 2 ∧
        ∀ i, i < 2 → ∀ j, j < 2 →
          C.el i j = (⟨[[1,2],[3,4]],2,2⟩ : Matrix Int).el i j
            + (⟨[[5,6],[7,8]],2,2⟩ : Matrix Int).el i j) :=
  ⟨by decide, by decide,
    (add_matrices_amended (⟨[[1,2],[3,4]],2,2⟩ : Matrix Int) ⟨[[5,6],[7,8]],2,2⟩
      (by decide) (by decide)).2 (by decide) (by decide)⟩

lemma identity_det_sum {T : Type} [Ring T] [Inhabited T] (n : Nat) (I : Matrix T)
    (hel : ∀ i j, i < n → j < n → I.el i j = if j = i then (1:T) else 0)
    (hlen : I.rows.length = n) (hmn : I.m = I.n) :
    get_determinant I = .ok 1 := by
  rw [get_determinant_ok I hmn, hlen]
  refine congrArg Except.ok ?_
  unfold get_perms
  have hnodup : ((List.range n).permutations').Nodup :=
    (List.permutations_perm_permutations' (List.range n)).nodup_iff.mp
      (List.nodup_permutations _ (List.nodup_range n))
  have hmem : List.range n ∈ (List.range n).permutations' :=
    List.mem_permutations'.mpr (List.Perm.refl _)
  have hzero : ∀ σ ∈ (List.range n).permutations', σ ≠ List.range n →
      ((get_permutation_sign σ : Int) : T) *
        ((List.range n).map (fun i => I.el i (σ.getD i 0))).prod = 0 := by
    intro σ hmemσ hne
    have hperm : σ.Perm (List.range n) := List.mem_permutations'.mp hmemσ
    have hlenσ : σ.length = n := by simpa using hperm.length_eq
    have hex : ∃ i, i < n ∧ σ.getD i 0 ≠ i := by
      by_contra hcon
      push_neg at hcon
      apply hne
      apply List.ext_getElem (by simp [hlenσ])
      intro k h1 h2
      have hk : k < n := by omega
      have hkk := hcon k hk
      rw [List.getD_eq_getElem σ 0 h1] at hkk
      rw [hkk, List.getElem_range]
    rcases hex with ⟨i, hi, hnei⟩
    have hilen : i < σ.length := by omega
    have hmemi : σ.getD i 0 ∈ σ := by
      rw [List.getD_eq_getElem σ 0 hilen]
      exact List.getElem_mem hilen
    have hσi : σ.getD i 0 < n := List.mem_range.mp (hperm.subset hmemi)
    have hfactor : I.el i (σ.getD i 0) = 0 := by
      rw [hel i (σ.getD i 0) hi hσi, if_neg hnei]
    have h0mem : (0:T) ∈ (List.range n).map (fun i => I.el i (σ.getD i 0)) :=
      List.mem_map.mpr ⟨i, List.mem_range.mpr hi, hfactor⟩
    rw [List.prod_eq_zero h0mem, mul_zero]
  rw [sum_map_eq_of_nodup_mem _ (List.range n) _ hnodup hmem hzero]
  rw [get_permutation_sign_range]
  have hprod : ((List.range n).map (fun i => I.el i ((List.range n).getD i 0))).prod = 1 := by
    apply List.prod_eq_one
    intro x hx
    rcases List.mem_map.mp hx with ⟨i, hi, rfl⟩
    have hi' : i < n := List.mem_range.mp hi
    rw [getD_range 0 hi', hel i i hi' hi', if_pos rfl]
  rw [hprod]
  simp

/-- Claim C7: for every n ≥ 1, get_determinant applied to the matrix produced
by create_identity_matrix n returns Ok of the element type's one. -/
theorem det_identity_one (T : Type) [Ring T] [Inhabited T] (n : Nat) (h : 1 ≤ n) :
    ∃ I : Matrix T, create_identity_matrix T n = .ok I ∧ get_determinant I = .ok 1 := by
  refine ⟨⟨(List.range n).map (fun i =>
      (List.range n).map (fun j => if j = i then (1:T) else 0)), n, n⟩, ?_, ?_⟩
  · unfold create_identity_matrix
    rw [if_neg (by omega)]
  · apply identity_det_sum n
    · intro i j hi hj
      exact el_mk_double_map (fun i j => if j = i then (1:T) else 0) n n i j hi hj
    · simp
    · rfl

/-- Witness for C7 at n = 3 over the integers. -/
theorem det_identity_one_witness :
    ∃ I : Matrix Int, create_identity_matrix Int 3 = .ok I ∧ get_determinant I = .ok 1 :=
  det_identity_one Int 3 (by decide)

end Pikus
